import Mathlib

/-!
# Verification of the CSP matching trie (`src/check/tree.rs`)

This file gives a shallow embedding of the compressed-trie CSP matcher:
a `HostNode` trie over reversed, dot-separated host labels, whose nodes
carry two `PathNode` path tries (exact/terminal and wildcard), with
bit-encoded grants of (scheme, resource-category) pairs at path nodes.

Strings are modelled as `List Char` (the source operates on ASCII policy
text, where byte-wise and character-wise operations coincide).  Bit sets
(`PathNodeFlags`, a `u32` in the source) are modelled as `Nat` with
`|||`/`&&&`; every defined flag is below `2 ^ 22`, so no overflow arises.
-/

namespace CSPTree

/-- Request scheme, from `enum ReqScheme`. -/
inductive ReqScheme where
  | Ftp | Gopher | Http | Https | Ws | Wss | Custom
  deriving DecidableEq, Fintype, Repr

/-- Request resource category, from `enum ReqResource`. -/
inductive ReqResource where
  | ChildSrc | ConnectSrc | DefaultSrc | FontSrc | FrameSrc | ImgSrc
  | ManifestSrc | MediaSrc | ObjectSrc | ScriptSrc | StyleSrc | WorkerSrc
  | BaseUri | FormAction | FrameAncestors
  deriving DecidableEq, Fintype, Repr

/-- A (scheme, resource-category) pair, from `struct ReqType(ReqScheme, ReqResource)`. -/
structure ReqType where
  scheme : ReqScheme
  resource : ReqResource
  deriving DecidableEq, Fintype, Repr

/-- The scheme bits of `PathNodeFlags` (`bitflags!` block in the source). -/
def schemeFlag : ReqScheme → Nat
  | .Ftp => 0x1
  | .Gopher => 0x2
  | .Http => 0x4
  | .Https => 0x8
  | .Ws => 0x10
  | .Wss => 0x20
  | .Custom => 0x40

/-- The resource-category bits of `PathNodeFlags` (`bitflags!` block in the source). -/
def resourceFlag : ReqResource → Nat
  | .ChildSrc => 0x80
  | .ConnectSrc => 0x100
  | .DefaultSrc => 0x200
  | .FontSrc => 0x400
  | .FrameSrc => 0x800
  | .ImgSrc => 0x1000
  | .ManifestSrc => 0x2000
  | .MediaSrc => 0x4000
  | .ObjectSrc => 0x8000
  | .ScriptSrc => 0x10000
  | .StyleSrc => 0x20000
  | .WorkerSrc => 0x40000
  | .BaseUri => 0x80000
  | .FormAction => 0x100000
  | .FrameAncestors => 0x200000

/-- `ReqType::flag`: OR of the scheme bit and the resource-category bit. -/
def ReqType.flag (t : ReqType) : Nat :=
  schemeFlag t.scheme ||| resourceFlag t.resource

/-- `bitflags` containment test `self.contains(other)`:
`(self.bits & other.bits) == other.bits`. -/
def flagsContain (s f : Nat) : Bool :=
  s &&& f == f

/-- `a` is a string prefix of `b` (Rust `str::starts_with` on byte strings). -/
def isPre : List Char → List Char → Bool
  | [], _ => true
  | _ :: _, [] => false
  | a :: as, b :: bs => a == b && isPre as bs

/-- Strip one optional leading `'/'`, as done by both `PathNode::insert` and
`PathNode::check` (`if path.as_bytes().get(0) == Some(&b'/') { path = &path[1..]; }`). -/
def normPath : List Char → List Char
  | '/' :: rest => rest
  | p => p

mutual
/-- `struct PathNode`: grant flags for "path ends here" plus child edges. -/
inductive PathNode where
  | mk (flags : Nat) (children : List PathEdge)

/-- `struct PathEdge`: a path sub-segment label and the node it leads to. -/
inductive PathEdge where
  | mk (pfx : List Char) (node : PathNode)
end

/-- Field accessor for `PathNode.flags`. -/
def PathNode.flags : PathNode → Nat
  | ⟨f, _⟩ => f

/-- Field accessor for `PathNode.children`. -/
def PathNode.children : PathNode → List PathEdge
  | ⟨_, cs⟩ => cs

/-- Field accessor for `PathEdge.pfx` (the source calls this field `prefix`). -/
def PathEdge.pfx : PathEdge → List Char
  | ⟨p, _⟩ => p

/-- Field accessor for `PathEdge.node`. -/
def PathEdge.node : PathEdge → PathNode
  | ⟨_, n⟩ => n

/-- `PathNode::new()`: empty flags, no children. -/
def PathNode.new : PathNode := ⟨0, []⟩

/-- The split-point scan `for i in 1 .. lab.len() { if pat.starts_with(&lab[0..i]) ... }`:
the first `i` in `[1, lab.length)` such that `lab.take i` is a prefix of `pat`. -/
def splitIdx (pat lab : List Char) : Option Nat :=
  (List.range' 1 (lab.length - 1)).find? (fun i => isPre (lab.take i) pat)

mutual
/-- `PathNode::insert_`: recursive insertion of a (normalized) path with a flag value. -/
def PathNode.ins : PathNode → Nat → List Char → PathNode
  | ⟨f, cs⟩, flag, path =>
    if path = [] then ⟨f ||| flag, cs⟩
    else ⟨f, insEdges flag path cs⟩

/-- The `for child in &mut self.children` loop of `PathNode::insert_`: the first
child that overlaps the path is rewritten (`tryEdge`); if none overlaps, a brand-new
edge for the whole remaining path is appended. -/
def insEdges (flag : Nat) (path : List Char) : List PathEdge → List PathEdge
  | [] => [⟨path, ⟨flag, []⟩⟩]
  | e :: rest =>
    match tryEdge flag path e with
    | some e2 => e2 :: rest
    | none => e :: insEdges flag path rest

/-- One iteration of the `insert_` loop body: `some` is a `return` with the
rewritten child edge, `none` falls through to the next sibling. -/
def tryEdge (flag : Nat) (path : List Char) : PathEdge → Option PathEdge
  | ⟨pre, node⟩ =>
    if pre.length ≤ path.length then
      if isPre pre path then
        some ⟨pre, node.ins flag (path.drop pre.length)⟩
      else
        match splitIdx path pre with
        | some i =>
          some ⟨pre.take i, ⟨0, [⟨pre.drop i, node⟩, ⟨path.drop i, ⟨flag, []⟩⟩]⟩⟩
        | none => none
    else
      if isPre path pre then
        some ⟨path, ⟨flag, [⟨pre.drop path.length, node⟩]⟩⟩
      else
        match splitIdx pre path with
        | some i =>
          some ⟨path.take i, ⟨0, [⟨pre.drop i, node⟩, ⟨path.drop i, ⟨flag, []⟩⟩]⟩⟩
        | none => none
end

/-- `PathNode::insert`: strip one optional leading `'/'`, then `insert_`
with `scheme.flag()`. -/
def PathNode.insert (n : PathNode) (rt : ReqType) (path : List Char) : PathNode :=
  n.ins rt.flag (normPath path)

/-- Lexicographic strict order on labels (Rust `&str` `Ord`, byte-wise). -/
def lexLt : List Char → List Char → Bool
  | [], [] => false
  | [], _ :: _ => true
  | _ :: _, [] => false
  | a :: as, b :: bs => a < b || (a == b && lexLt as bs)

/-- One step of stable insertion sort on edges, keyed by label. -/
def ordIns (e : PathEdge) : List PathEdge → List PathEdge
  | [] => [e]
  | h :: t => if lexLt e.pfx h.pfx then e :: h :: t else h :: ordIns e t

/-- Stable sort of a child list by edge label
(`self.children.sort_by_key(|child| child.prefix)`). -/
def sortEdges : List PathEdge → List PathEdge
  | [] => []
  | e :: rest => ordIns e (sortEdges rest)

/-- Modelled from the spec: the Ordered-Edge Search collaborator's `arrange`
(`src/check/search.rs`, not under `src/`).  Per §4.4 a conforming
implementation "may be a no-op if the sequence is already sorted and searched
by plain binary search"; we model it as the identity on the sorted list. -/
def searchArrange (es : List PathEdge) : List PathEdge := es

/-- Modelled from the spec: the Ordered-Edge Search collaborator's `find`
(`src/check/search.rs`, not under `src/`).  Per §4.4 it "returns the matching
edge or none" for the three-way comparator that reports Equal when the
remaining path starts with the edge label; we model it as the first edge of
the (sorted) sequence whose label is a prefix of the probe. -/
def searchFind (es : List PathEdge) (path : List Char) : Option PathEdge :=
  es.find? (fun e => isPre e.pfx path)

mutual
/-- `PathNode::arrange`: sort each node's children by label, hand them to the
search collaborator's `arrange`, and arrange every child node.  The source
sorts the child list first and then arranges each child in place; arranging a
child never changes its label, so arranging the children first and sorting the
results (done here so the recursion is structural) produces the same tree. -/
def PathNode.arrange : PathNode → PathNode
  | ⟨f, cs⟩ => ⟨f, searchArrange (sortEdges (arrangeEdges cs))⟩

/-- Arrange every child node of a child list. -/
def arrangeEdges : List PathEdge → List PathEdge
  | [] => []
  | ⟨l, n⟩ :: rest => ⟨l, n.arrange⟩ :: arrangeEdges rest
end

/-- `PathNode::check_scheme`: `self.flags.contains(scheme.flag())`. -/
def PathNode.checkScheme (n : PathNode) (rt : ReqType) : Bool :=
  flagsContain n.flags rt.flag

mutual
/-- `PathNode::check_`: the node's own flags grant the pair, or the unique
child found by `search::find` grants the remaining suffix. -/
def PathNode.chk : PathNode → ReqType → List Char → Bool
  | ⟨f, cs⟩, rt, path =>
    flagsContain f rt.flag || chkEdges cs rt path

/-- `search::find` on the child list fused with the recursive descent of
`PathNode::check_` (the first edge whose label is a prefix of the path is
the edge `searchFind` returns; see `chkEdges_eq_searchFind`). -/
def chkEdges : List PathEdge → ReqType → List Char → Bool
  | [], _, _ => false
  | ⟨pre, n⟩ :: rest, rt, path =>
    if isPre pre path then n.chk rt (path.drop pre.length)
    else chkEdges rest rt path
end

/-- `PathNode::check`: strip one optional leading `'/'`, then `check_`. -/
def PathNode.check (n : PathNode) (rt : ReqType) (path : List Char) : Bool :=
  n.chk rt (normPath path)

mutual
/-- `struct HostNode`: terminal and wildcard path tries plus labelled children. -/
inductive HostNode where
  | mk (terminal : PathNode) (wildcard : PathNode) (children : List HostEdge)

/-- One entry of the `HashMap<&str, HostNode>` child map. -/
inductive HostEdge where
  | mk (label : List Char) (node : HostNode)
end

/-- Field accessor for `HostNode.terminal`. -/
def HostNode.terminal : HostNode → PathNode
  | ⟨t, _, _⟩ => t

/-- Field accessor for `HostNode.wildcard`. -/
def HostNode.wildcard : HostNode → PathNode
  | ⟨_, w, _⟩ => w

/-- Field accessor for `HostNode.children`. -/
def HostNode.children : HostNode → List HostEdge
  | ⟨_, _, cs⟩ => cs

/-- Field accessor for `HostEdge.label`. -/
def HostEdge.label : HostEdge → List Char
  | ⟨l, _⟩ => l

/-- Field accessor for `HostEdge.node`. -/
def HostEdge.node : HostEdge → HostNode
  | ⟨_, n⟩ => n

/-- `HostNode::new()`: empty path tries, no children. -/
def HostNode.new : HostNode := ⟨PathNode.new, PathNode.new, []⟩

/-- `self.children.entry(part).or_insert_with(HostNode::new)` followed by an
update of the selected child: apply `f` to the child keyed `key`, inserting a
fresh node first when the key is absent (the `HashMap` is unordered, so the
position of the new entry is immaterial; we append it). -/
def updAssoc (key : List Char) (f : HostNode → HostNode) : List HostEdge → List HostEdge
  | [] => [⟨key, f HostNode.new⟩]
  | ⟨l, c⟩ :: rest =>
    if l = key then ⟨l, f c⟩ :: rest else ⟨l, c⟩ :: updAssoc key f rest

/-- `self.children.get(part)` on the child map. -/
def lookupChild (key : List Char) : List HostEdge → Option HostNode
  | [] => none
  | ⟨l, c⟩ :: rest => if l = key then some c else lookupChild key rest

/-- `str::split('.')`: dot-separated pieces; an empty string yields one empty piece. -/
def splitDots : List Char → List (List Char)
  | [] => [[]]
  | c :: rest =>
    if c = '.' then [] :: splitDots rest
    else
      match splitDots rest with
      | h :: t => (c :: h) :: t
      | [] => [[c]]

/-- `HostNode::insert_`: consume reversed host labels one per level; a `"*"`
label sends the path into the current node's wildcard trie and stops; exhausted
labels insert into the terminal trie. -/
def HostNode.ins : HostNode → ReqType → List (List Char) → List Char → HostNode
  | ⟨t, w, cs⟩, rt, [], path => ⟨t.insert rt path, w, cs⟩
  | ⟨t, w, cs⟩, rt, part :: rest, path =>
    if part = ['*'] then ⟨t, w.insert rt path, cs⟩
    else ⟨t, w, updAssoc part (fun c => c.ins rt rest path) cs⟩

/-- `HostNode::insert`: split the host on `'.'`, reverse, and `insert_`. -/
def HostNode.insert (n : HostNode) (rt : ReqType) (host path : List Char) : HostNode :=
  n.ins rt (splitDots host).reverse path

mutual
/-- `HostNode::arrange`: arrange both path tries and every child. -/
def HostNode.arrange : HostNode → HostNode
  | ⟨t, w, cs⟩ => ⟨t.arrange, w.arrange, arrangeHostEdges cs⟩

/-- Arrange every child of a host child list. -/
def arrangeHostEdges : List HostEdge → List HostEdge
  | [] => []
  | ⟨l, c⟩ :: rest => ⟨l, c.arrange⟩ :: arrangeHostEdges rest
end

/-- `HostNode::check_`: with a next label, try the exact child (if any) and
fall back to the wildcard trie on the full path; with labels exhausted, check
the terminal trie. -/
def HostNode.chk : HostNode → ReqType → List (List Char) → List Char → Bool
  | ⟨t, _, _⟩, rt, [], path => t.check rt path
  | ⟨_, w, cs⟩, rt, part :: rest, path =>
    (match lookupChild part cs with
     | some c => c.chk rt rest path
     | none => false) || w.check rt path

/-- `HostNode::check`: split the host on `'.'`, reverse, and `check_`. -/
def HostNode.check (n : HostNode) (rt : ReqType) (host path : List Char) : Bool :=
  n.chk rt (splitDots host).reverse path

/-! ## The naive linear-scan model (the specification side of claim C1)

Stated from the claim's words: a host pattern matches a request host by exact
equality of the dot-separated label sequences, or, for a wildcard pattern
`*.suffix`, when the request host is one or more extra labels followed by
`.suffix`; a stored path grants a request path when its normalization is a
string prefix of the normalized request path. -/

/-- Spec-side host matching of one source-expression host pattern. -/
def hostMatches (pat host : List Char) : Bool :=
  let pl := splitDots pat
  let hl := splitDots host
  pl == hl ||
    (match pl with
     | w :: suf =>
       w == ['*'] && decide (suf.length < hl.length) &&
         hl.drop (hl.length - suf.length) == suf
     | [] => false)

/-- Spec-side naive linear scan over the inserted (reqtype, host, path) tuples. -/
def naiveCheck (tuples : List (ReqType × List Char × List Char))
    (rt : ReqType) (host path : List Char) : Bool :=
  tuples.any fun t =>
    t.1 == rt && hostMatches t.2.1 host && isPre (normPath t.2.2) (normPath path)

/-- Build a `HostNode` tree by inserting a list of (reqtype, host, path) tuples. -/
def buildHost (tuples : List (ReqType × List Char × List Char)) : HostNode :=
  tuples.foldl (fun n t => n.insert t.1 t.2.1 t.2.2) HostNode.new

/-- Build a `PathNode` tree by inserting a list of (reqtype, path) pairs. -/
def buildPath (pairs : List (ReqType × List Char)) : PathNode :=
  pairs.foldl (fun n t => n.insert t.1 t.2) PathNode.new

/-! ## Claim-level predicates on trees -/

/-- Two labels share a nonzero-length common prefix
(both nonempty with the same first character). -/
def sharePre (a b : List Char) : Bool :=
  match a, b with
  | x :: _, y :: _ => x == y
  | _, _ => false

/-- Pairwise: no two labels of the list share a nonzero-length common prefix. -/
def labelsDisjoint : List (List Char) → Bool
  | [] => true
  | l :: ls => ls.all (fun m => !sharePre l m) && labelsDisjoint ls

/-- The labels of a child list. -/
def labelsOf : List PathEdge → List (List Char)
  | [] => []
  | e :: rest => e.pfx :: labelsOf rest

mutual
/-- Every node of the path trie has pairwise prefix-disjoint child edges
(the invariant asserted by claim C2). -/
def PathNode.sibsDisjoint : PathNode → Bool
  | ⟨_, cs⟩ => labelsDisjoint (labelsOf cs) && edgesDisjoint cs

/-- `sibsDisjoint` for every node of a child list. -/
def edgesDisjoint : List PathEdge → Bool
  | [] => true
  | ⟨_, n⟩ :: rest => n.sibsDisjoint && edgesDisjoint rest
end

mutual
/-- Every edge of the path trie has a label of nonzero length (claim C8). -/
def PathNode.edgesNonempty : PathNode → Bool
  | ⟨_, cs⟩ => edgeListNonempty cs

/-- `edgesNonempty` for a child list: each label is nonempty and each subtree
satisfies the invariant. -/
def edgeListNonempty : List PathEdge → Bool
  | [] => true
  | ⟨l, n⟩ :: rest => decide (l ≠ []) && n.edgesNonempty && edgeListNonempty rest
end

mutual
/-- Every `PathNodeFlags` value in the path trie is `0` or `F`
(invariant used for claim C7: a tree built from a single pair only ever
holds that pair's flag value). -/
def PathNode.flagsIn : PathNode → Nat → Bool
  | ⟨f, cs⟩, F => (f == 0 || f == F) && edgesFlagsIn cs F

/-- `flagsIn` for every node of a child list. -/
def edgesFlagsIn : List PathEdge → Nat → Bool
  | [], _ => true
  | ⟨_, n⟩ :: rest, F => n.flagsIn F && edgesFlagsIn rest F
end

mutual
/-- Every `PathNodeFlags` value anywhere in the host trie is `0` or `F`. -/
def HostNode.flagsIn : HostNode → Nat → Bool
  | ⟨t, w, cs⟩, F => t.flagsIn F && w.flagsIn F && hostEdgesFlagsIn cs F

/-- `flagsIn` for every node of a host child list. -/
def hostEdgesFlagsIn : List HostEdge → Nat → Bool
  | [], _ => true
  | ⟨_, c⟩ :: rest, F => c.flagsIn F && hostEdgesFlagsIn rest F
end

/-- A host-trie chain: one child per label down the list, ending in a node
holding the given terminal and wildcard path tries.  This is the shape
`HostNode::insert` produces from a single host pattern; it is proof
infrastructure, not part of the source model. -/
def mkChain : List (List Char) → PathNode → PathNode → HostNode
  | [], t, w => ⟨t, w, []⟩
  | l :: ls, t, w => ⟨PathNode.new, PathNode.new, [⟨l, mkChain ls t w⟩]⟩

/-! ## Basic lemmas -/

set_option maxRecDepth 10000 in
theorem flag_ne_zero : ∀ rt : ReqType, rt.flag ≠ 0 := by decide

theorem flagsContain_self (f : Nat) : flagsContain f f = true := by
  simp [flagsContain, Nat.and_self]

theorem flagsContain_zero_flag (rt : ReqType) : flagsContain 0 rt.flag = false := by
  have h := flag_ne_zero rt
  simp [flagsContain, Nat.zero_and]
  exact fun h' => h h'.symm

/-- The fused descent `chkEdges` agrees with `search::find` followed by the
recursive call of `PathNode::check_`, as the source composes them. -/
theorem chkEdges_eq_searchFind (rt : ReqType) (path : List Char) :
    ∀ es, chkEdges es rt path =
      (match searchFind es path with
       | some e => e.node.chk rt (path.drop e.pfx.length)
       | none => false) := by
  intro es
  induction es with
  | nil => rfl
  | cons e rest ih =>
    obtain ⟨pre, n⟩ := e
    cases hp : isPre pre path with
    | true =>
      simp [chkEdges, searchFind, List.find?, PathEdge.pfx, PathEdge.node, hp]
    | false =>
      simp only [chkEdges, hp, Bool.false_eq_true, if_false, ih, searchFind, List.find?,
        PathEdge.pfx, hp]

theorem arrange_new : PathNode.new.arrange = PathNode.new := rfl

theorem new_check_false (rt : ReqType) (p : List Char) :
    PathNode.new.check rt p = false := by
  simp [PathNode.check, PathNode.new, PathNode.chk, chkEdges, flagsContain_zero_flag]

/-- Inserting a single path into an empty path trie and arranging yields a tree
whose `check` with the same pair is exactly the normalized-prefix test. -/
theorem single_insert_check (rt : ReqType) (q p : List Char) :
    ((PathNode.new.insert rt q).arrange).check rt p = isPre (normPath q) (normPath p) := by
  unfold PathNode.insert PathNode.check
  generalize normPath q = q0
  generalize normPath p = p0
  cases q0 with
  | nil =>
    simp [PathNode.ins, PathNode.new, PathNode.arrange, arrangeEdges, sortEdges,
      searchArrange, PathNode.chk, chkEdges, Nat.zero_or, flagsContain_self, isPre]
  | cons c cs =>
    simp only [PathNode.ins, PathNode.new]
    rw [if_neg (by simp)]
    simp only [insEdges, PathNode.arrange, arrangeEdges, sortEdges, ordIns, searchArrange]
    cases hp : isPre (c :: cs) p0 with
    | true =>
      simp [PathNode.chk, chkEdges, hp, flagsContain_zero_flag, flagsContain_self]
    | false =>
      simp [PathNode.chk, chkEdges, hp, flagsContain_zero_flag]


/-! ## Host-chain lemmas -/

theorem splitDots_ne_nil (a : List Char) : splitDots a ≠ [] := by
  induction a with
  | nil => simp [splitDots]
  | cons c rest ih =>
    simp only [splitDots]
    by_cases hc : c = '.'
    · simp [hc]
    · simp only [if_neg hc]
      cases h : splitDots rest <;> simp

theorem splitDots_append (a b : List Char) :
    splitDots (a ++ '.' :: b) = splitDots a ++ splitDots b := by
  induction a with
  | nil => simp [splitDots]
  | cons c rest ih =>
    by_cases hc : c = '.'
    · simp [splitDots, hc, ih]
    · cases h : splitDots rest with
      | nil => exact absurd h (splitDots_ne_nil rest)
      | cons hd tl =>
        simp only [List.cons_append, splitDots, if_neg hc, List.append_eq, ih, h]

theorem splitDots_star_dot (h : List Char) :
    splitDots ('*' :: '.' :: h) = ['*'] :: splitDots h := by
  have h2 := splitDots_append ['*'] h
  simp only [List.cons_append, List.nil_append] at h2
  rw [h2]
  simp [splitDots]

theorem ins_chain_no_star (rt : ReqType) (q : List Char) :
    ∀ L : List (List Char), ['*'] ∉ L →
      HostNode.new.ins rt L q = mkChain L (PathNode.new.insert rt q) PathNode.new := by
  intro L
  induction L with
  | nil => intro _; rfl
  | cons l ls ih =>
    intro hmem
    have hl : ¬l = ['*'] := fun h => hmem (h ▸ List.mem_cons_self l ls)
    have hls : ['*'] ∉ ls := fun h => hmem (List.mem_cons_of_mem l h)
    simp [HostNode.ins, HostNode.new, hl, updAssoc, mkChain]
    exact ih hls

theorem ins_mkChain_star (rt : ReqType) (q : List Char) (t w : PathNode) (M : List (List Char)) :
    ∀ L, ['*'] ∉ L →
      (mkChain L t w).ins rt (L ++ ['*'] :: M) q = mkChain L t (w.insert rt q) := by
  intro L
  induction L with
  | nil => intro _; rfl
  | cons l ls ih =>
    intro hmem
    have hl : ¬l = ['*'] := fun h => hmem (h ▸ List.mem_cons_self l ls)
    have hls : ['*'] ∉ ls := fun h => hmem (List.mem_cons_of_mem l h)
    simp [mkChain, HostNode.ins, hl, updAssoc]
    exact ih hls

theorem ins_new_star (rt : ReqType) (q : List Char) (M : List (List Char)) :
    ∀ L, ['*'] ∉ L →
      HostNode.new.ins rt (L ++ ['*'] :: M) q
        = mkChain L PathNode.new (PathNode.new.insert rt q) := by
  intro L
  induction L with
  | nil => intro _; rfl
  | cons l ls ih =>
    intro hmem
    have hl : ¬l = ['*'] := fun h => hmem (h ▸ List.mem_cons_self l ls)
    have hls : ['*'] ∉ ls := fun h => hmem (List.mem_cons_of_mem l h)
    simp [HostNode.ins, HostNode.new, hl, updAssoc, mkChain]
    exact ih hls

theorem arrange_mkChain (t w : PathNode) :
    ∀ L, (mkChain L t w).arrange = mkChain L t.arrange w.arrange := by
  intro L
  induction L with
  | nil => rfl
  | cons l ls ih =>
    simp [mkChain, HostNode.arrange, arrangeHostEdges, arrange_new, ih]

theorem chk_mkChain_exact (rt : ReqType) (p : List Char) (t w : PathNode) :
    ∀ L, (mkChain L t w).chk rt L p = t.check rt p := by
  intro L
  induction L with
  | nil => rfl
  | cons l ls ih =>
    simp [mkChain, HostNode.chk, lookupChild, ih, new_check_false]

theorem chk_mkChain_deeper (rt : ReqType) (p : List Char) (t w : PathNode)
    (l' : List Char) (M : List (List Char)) :
    ∀ L, (mkChain L t w).chk rt (L ++ l' :: M) p = w.check rt p := by
  intro L
  induction L with
  | nil => simp [mkChain, HostNode.chk, lookupChild]
  | cons l ls ih =>
    simp [mkChain, HostNode.chk, lookupChild, ih, new_check_false]


/-! ## Claim theorems (first batch) -/

/-- **C1.** The claim asserts that `HostNode::check` after `arrange` agrees with
the naive linear scan over the inserted tuples.  It does not: after inserting
(Http/ScriptSrc, "com", "/abc"), (Https/StyleSrc, "com", "/abd") and
(Http/ScriptSrc, "com", "/ab"), probing the exact inserted tuple
(Https/StyleSrc, "com", "/abd") returns `false` from the tree while the naive
scan grants it.  Insertion splits edges at the shortest shared prefix, leaving
sibling edges `"b"`/`"bd"` that both match the probe; `check` descends only the
edge `search::find` returns and misses the grant recorded under the other. -/
theorem c1_tree_differs_from_naive_scan :
    ((buildHost [(⟨.Http, .ScriptSrc⟩, "com".toList, "/abc".toList),
                 (⟨.Https, .StyleSrc⟩, "com".toList, "/abd".toList),
                 (⟨.Http, .ScriptSrc⟩, "com".toList, "/ab".toList)]).arrange).check
        ⟨.Https, .StyleSrc⟩ "com".toList "/abd".toList = false ∧
      naiveCheck [(⟨.Http, .ScriptSrc⟩, "com".toList, "/abc".toList),
                  (⟨.Https, .StyleSrc⟩, "com".toList, "/abd".toList),
                  (⟨.Http, .ScriptSrc⟩, "com".toList, "/ab".toList)]
        ⟨.Https, .StyleSrc⟩ "com".toList "/abd".toList = true :=
  ⟨by decide, by decide⟩

/-- **C2.** The claim asserts that after any insertion sequence the sibling
edges of every node are pairwise prefix-disjoint.  Two insertions refute it:
after inserting "/abc" then "/abd", the node reached by the edge "a" has
sibling edges labelled "bc" and "bd", which share the nonzero-length common
prefix "b".  The `for i in 1..` scan of `insert_` splits at the shortest
shared prefix instead of the full common prefix. -/
theorem c2_sibling_edges_not_disjoint :
    ((PathNode.new.insert ⟨.Http, .ScriptSrc⟩ "/abc".toList).insert
        ⟨.Http, .ScriptSrc⟩ "/abd".toList).sibsDisjoint = false := by
  decide

/-- **C3.** After inserting exactly one `(pair, q)` into an empty `PathNode`
and arranging, `check (pair, p)` is true iff the normalization of `q`
(stripping one optional leading '/') is a string prefix of the normalization
of `p`; in particular root and empty path are interchangeable, and inserting
"/test" grants "/test" but not "/xxx". -/
theorem c3_single_insert_is_normalized_pre_test :
    (∀ (rt : ReqType) (q p : List Char),
        ((PathNode.new.insert rt q).arrange).check rt p = isPre (normPath q) (normPath p)) ∧
      ((PathNode.new.insert ⟨.Http, .ScriptSrc⟩ "/".toList).arrange).check
          ⟨.Http, .ScriptSrc⟩ "".toList = true ∧
      ((PathNode.new.insert ⟨.Http, .ScriptSrc⟩ "".toList).arrange).check
          ⟨.Http, .ScriptSrc⟩ "/".toList = true ∧
      ((PathNode.new.insert ⟨.Http, .ScriptSrc⟩ "/test".toList).arrange).check
          ⟨.Http, .ScriptSrc⟩ "/test".toList = true ∧
      ((PathNode.new.insert ⟨.Http, .ScriptSrc⟩ "/test".toList).arrange).check
          ⟨.Http, .ScriptSrc⟩ "/xxx".toList = false :=
  ⟨single_insert_check, by decide, by decide, by decide, by decide⟩

/-- **C4.** Flag aliasing: with A = (Https, ScriptSrc) and B = (Http, StyleSrc)
inserted at the same host and path, the never-inserted pair C = (Https,
StyleSrc) — A's scheme with B's category — is reported as granted, because its
scheme bit was set by one insertion and its category bit by the other at the
same node. -/
theorem c4_flag_pair_aliasing :
    (⟨.Https, .ScriptSrc⟩ : ReqType) ≠ ⟨.Http, .StyleSrc⟩ ∧
      (⟨.Https, .StyleSrc⟩ : ReqType) ≠ ⟨.Https, .ScriptSrc⟩ ∧
      (⟨.Https, .StyleSrc⟩ : ReqType) ≠ ⟨.Http, .StyleSrc⟩ ∧
      (((HostNode.new.insert ⟨.Https, .ScriptSrc⟩ "com".toList "/x".toList).insert
          ⟨.Http, .StyleSrc⟩ "com".toList "/x".toList).arrange).check
        ⟨.Https, .StyleSrc⟩ "com".toList "/x".toList = true :=
  ⟨by decide, by decide, by decide, by decide⟩

/-- **C5, counterexample.** The claim quantifies over every host suffix `h`.
For `h = "*"` it fails: inserting the wildcard host `"*.*"` stops at the first
`"*"` of the reversed label order, placing the path in the root's wildcard
trie, so checking the apex host `"*"` itself succeeds, while the claim demands
it return false. -/
theorem c5_counterexample_star_suffix :
    isPre (normPath "/s".toList) (normPath "/s".toList) = true ∧
      ((HostNode.new.insert ⟨.Http, .ScriptSrc⟩ ('*' :: '.' :: "*".toList) "/s".toList).arrange).check
        ⟨.Http, .ScriptSrc⟩ "*".toList "/s".toList = true :=
  ⟨by decide, by decide⟩

/-- **C5, amended.** For every pair, host suffix `h` none of whose
dot-separated labels is the wildcard marker `"*"`, and paths `q`, `p` with
normalized `q` a string prefix of normalized `p`: after inserting
`(pair, "*." ++ h, q)` into a fresh `HostNode` and arranging, `check` is true
for every host obtained by prepending one or more extra dot-separated labels
to `h`, and false for the apex host `h` itself. -/
theorem c5_wildcard_matches_only_proper_subdomains :
    ∀ (rt : ReqType) (h q p s : List Char),
      ['*'] ∉ splitDots h →
      isPre (normPath q) (normPath p) = true →
      ((HostNode.new.insert rt ('*' :: '.' :: h) q).arrange).check rt (s ++ '.' :: h) p = true ∧
        ((HostNode.new.insert rt ('*' :: '.' :: h) q).arrange).check rt h p = false := by
  intro rt h q p s hstar hpre
  have hstarL : ['*'] ∉ (splitDots h).reverse := by
    simpa using hstar
  have htree :
      (HostNode.new.insert rt ('*' :: '.' :: h) q).arrange
        = mkChain (splitDots h).reverse PathNode.new ((PathNode.new.insert rt q).arrange) := by
    unfold HostNode.insert
    rw [splitDots_star_dot]
    have hrev : (['*'] :: splitDots h).reverse = (splitDots h).reverse ++ ['*'] :: [] := by
      simp
    rw [hrev, ins_new_star rt q [] _ hstarL, arrange_mkChain, arrange_new]
  constructor
  · unfold HostNode.check
    rw [htree, splitDots_append, List.reverse_append]
    cases hx : (splitDots s).reverse with
    | nil =>
      exact absurd (by simpa using hx) (splitDots_ne_nil s)
    | cons l' M =>
      rw [chk_mkChain_deeper, single_insert_check, hpre]
  · unfold HostNode.check
    rw [htree, chk_mkChain_exact]
    exact new_check_false rt p

/-- Witness for `c5_wildcard_matches_only_proper_subdomains` at
rt = (Http, ScriptSrc), h = "com", q = "/s", p = "/s/x", s = "cdn". -/
theorem c5_wildcard_witness :
    (['*'] ∉ splitDots "com".toList) ∧
      isPre (normPath "/s".toList) (normPath "/s/x".toList) = true ∧
      (((HostNode.new.insert ⟨.Http, .ScriptSrc⟩ ('*' :: '.' :: "com".toList) "/s".toList).arrange).check
          ⟨.Http, .ScriptSrc⟩ ("cdn".toList ++ '.' :: "com".toList) "/s/x".toList = true ∧
        ((HostNode.new.insert ⟨.Http, .ScriptSrc⟩ ('*' :: '.' :: "com".toList) "/s".toList).arrange).check
          ⟨.Http, .ScriptSrc⟩ "com".toList "/s/x".toList = false) :=
  ⟨by decide, by decide,
    c5_wildcard_matches_only_proper_subdomains ⟨.Http, .ScriptSrc⟩ "com".toList "/s".toList
      "/s/x".toList "cdn".toList (by decide) (by decide)⟩

/-- **C6, counterexample.** The claim quantifies over every host `h`.  For
`h = "*"` it fails: the exact entry's host `"*"` is itself the wildcard marker,
so its path q1 lands in the root's wildcard trie, and checking the apex host
matches q2's normalization as well as q1's — here `check` is true though
normalized q1 = "a" is not a prefix of normalized p = "b". -/
theorem c6_counterexample_star_host :
    isPre (normPath "/a".toList) (normPath "/b".toList) = false ∧
      (((HostNode.new.insert ⟨.Http, .ScriptSrc⟩ "*".toList "/a".toList).insert
          ⟨.Http, .ScriptSrc⟩ ('*' :: '.' :: "*".toList) "/b".toList).arrange).check
        ⟨.Http, .ScriptSrc⟩ "*".toList "/b".toList = true :=
  ⟨by decide, by decide⟩

/-- **C6, amended.** For every pair, host `h` none of whose dot-separated
labels is the wildcard marker `"*"`, and paths q1, q2: after inserting the
exact entry `(pair, h, q1)` and the wildcard entry `(pair, "*." ++ h, q2)`
into a fresh `HostNode` and arranging, checking the apex host is exactly the
normalized-prefix test against q1 (the wildcard entry plays no role), and
checking any host with extra labels prepended is exactly the normalized-prefix
test against q2 (the exact entry plays no role). -/
theorem c6_exact_and_wildcard_independent :
    ∀ (rt : ReqType) (h q1 q2 s p : List Char),
      ['*'] ∉ splitDots h →
      (((HostNode.new.insert rt h q1).insert rt ('*' :: '.' :: h) q2).arrange).check rt h p
          = isPre (normPath q1) (normPath p) ∧
        (((HostNode.new.insert rt h q1).insert rt ('*' :: '.' :: h) q2).arrange).check rt
            (s ++ '.' :: h) p = isPre (normPath q2) (normPath p) := by
  intro rt h q1 q2 s p hstar
  have hstarL : ['*'] ∉ (splitDots h).reverse := by simpa using hstar
  have htree :
      ((HostNode.new.insert rt h q1).insert rt ('*' :: '.' :: h) q2).arrange
        = mkChain (splitDots h).reverse ((PathNode.new.insert rt q1).arrange)
            ((PathNode.new.insert rt q2).arrange) := by
    unfold HostNode.insert
    rw [splitDots_star_dot]
    have hrev : (['*'] :: splitDots h).reverse = (splitDots h).reverse ++ ['*'] :: [] := by
      simp
    rw [hrev, ins_chain_no_star rt q1 _ hstarL, ins_mkChain_star rt q2 _ _ [] _ hstarL,
      arrange_mkChain]
  constructor
  · unfold HostNode.check
    rw [htree, chk_mkChain_exact, single_insert_check]
  · unfold HostNode.check
    rw [htree, splitDots_append, List.reverse_append]
    cases hx : (splitDots s).reverse with
    | nil => exact absurd (by simpa using hx) (splitDots_ne_nil s)
    | cons l' M => rw [chk_mkChain_deeper, single_insert_check]

/-- Witness for `c6_exact_and_wildcard_independent` at rt = (Http, ScriptSrc),
h = "com", q1 = "/a", q2 = "/b", s = "cdn", p = "/a". -/
theorem c6_exact_wildcard_witness :
    (['*'] ∉ splitDots "com".toList) ∧
      ((((HostNode.new.insert ⟨.Http, .ScriptSrc⟩ "com".toList "/a".toList).insert
            ⟨.Http, .ScriptSrc⟩ ('*' :: '.' :: "com".toList) "/b".toList).arrange).check
          ⟨.Http, .ScriptSrc⟩ "com".toList "/a".toList
            = isPre (normPath "/a".toList) (normPath "/a".toList) ∧
        (((HostNode.new.insert ⟨.Http, .ScriptSrc⟩ "com".toList "/a".toList).insert
            ⟨.Http, .ScriptSrc⟩ ('*' :: '.' :: "com".toList) "/b".toList).arrange).check
          ⟨.Http, .ScriptSrc⟩ ("cdn".toList ++ '.' :: "com".toList) "/a".toList
            = isPre (normPath "/b".toList) (normPath "/a".toList)) :=
  ⟨by decide,
    c6_exact_and_wildcard_independent ⟨.Http, .ScriptSrc⟩ "com".toList "/a".toList "/b".toList
      "cdn".toList "/a".toList (by decide)⟩

/-- **C10.** `HostNode::insert` stops consuming labels at the first `"*"`
label in reversed order: for any host strings `a` and `b` where `b` contains
no `"*"` label, inserting with host `a ++ ".*." ++ b` produces a tree whose
`check` results coincide with those after inserting with host `"*." ++ b` —
all labels left of the rightmost wildcard marker are discarded. -/
theorem c10_labels_beyond_wildcard_discarded :
    ∀ (rt : ReqType) (a b q : List Char) (rt2 : ReqType) (h2 p2 : List Char),
      ['*'] ∉ splitDots b →
      ((HostNode.new.insert rt (a ++ '.' :: '*' :: '.' :: b) q).arrange).check rt2 h2 p2
        = ((HostNode.new.insert rt ('*' :: '.' :: b) q).arrange).check rt2 h2 p2 := by
  intro rt a b q rt2 h2 p2 hstar
  have hstarL : ['*'] ∉ (splitDots b).reverse := by simpa using hstar
  have ht1 :
      HostNode.new.insert rt (a ++ '.' :: '*' :: '.' :: b) q
        = mkChain (splitDots b).reverse PathNode.new (PathNode.new.insert rt q) := by
    unfold HostNode.insert
    rw [splitDots_append, splitDots_star_dot, List.reverse_append]
    have hrev : (['*'] :: splitDots b).reverse ++ (splitDots a).reverse
        = (splitDots b).reverse ++ ['*'] :: (splitDots a).reverse := by
      simp
    rw [hrev, ins_new_star rt q _ _ hstarL]
  have ht2 :
      HostNode.new.insert rt ('*' :: '.' :: b) q
        = mkChain (splitDots b).reverse PathNode.new (PathNode.new.insert rt q) := by
    unfold HostNode.insert
    rw [splitDots_star_dot]
    have hrev : (['*'] :: splitDots b).reverse = (splitDots b).reverse ++ ['*'] :: [] := by
      simp
    rw [hrev, ins_new_star rt q [] _ hstarL]
  rw [ht1, ht2]

/-- Witness for `c10_labels_beyond_wildcard_discarded` at rt = rt2 =
(Http, ScriptSrc), a = "x", b = "com", q = "/s", probe host "cdn.com",
probe path "/s". -/
theorem c10_discard_witness :
    (['*'] ∉ splitDots "com".toList) ∧
      ((HostNode.new.insert ⟨.Http, .ScriptSrc⟩ ("x".toList ++ '.' :: '*' :: '.' :: "com".toList)
            "/s".toList).arrange).check ⟨.Http, .ScriptSrc⟩ "cdn.com".toList "/s".toList
        = ((HostNode.new.insert ⟨.Http, .ScriptSrc⟩ ('*' :: '.' :: "com".toList)
            "/s".toList).arrange).check ⟨.Http, .ScriptSrc⟩ "cdn.com".toList "/s".toList :=
  ⟨by decide,
    c10_labels_beyond_wildcard_discarded ⟨.Http, .ScriptSrc⟩ "x".toList "com".toList "/s".toList
      ⟨.Http, .ScriptSrc⟩ "cdn.com".toList "/s".toList (by decide)⟩

/-! ## Edge-label invariant (claim C8) -/

theorem splitIdx_bounds {pat lab : List Char} {i : Nat} (h : splitIdx pat lab = some i) :
    1 ≤ i ∧ i < lab.length := by
  unfold splitIdx at h
  have hmem := List.mem_of_find?_eq_some h
  rw [List.mem_range'_1] at hmem
  omega

theorem drop_ne_nil {l : List Char} {i : Nat} (h : i < l.length) : l.drop i ≠ [] := by
  intro hc
  have := congrArg List.length hc
  simp at this
  omega

theorem take_ne_nil {l : List Char} {i : Nat} (h1 : 1 ≤ i) (h2 : l ≠ []) : l.take i ≠ [] := by
  intro hc
  cases l with
  | nil => exact h2 rfl
  | cons a as =>
    cases i with
    | zero => omega
    | succ n => simp [List.take] at hc

theorem edgesNonempty_ins :
    ∀ (n : PathNode) (flag : Nat) (path : List Char),
      n.edgesNonempty = true → (n.ins flag path).edgesNonempty = true := by
  refine PathNode.ins.induct
    (fun n flag path => n.edgesNonempty = true → (n.ins flag path).edgesNonempty = true)
    (fun flag path cs => path ≠ [] → edgeListNonempty cs = true →
        edgeListNonempty (insEdges flag path cs) = true)
    (fun flag path e => path ≠ [] → (e.pfx ≠ [] ∧ e.node.edgesNonempty = true) →
        ∀ e2, tryEdge flag path e = some e2 →
          (e2.pfx ≠ [] ∧ e2.node.edgesNonempty = true))
    ?_ ?_ ?_ ?_ ?_ ?_ ?_ ?_ ?_ ?_ ?_
  · intro f cs flag h
    simpa [PathNode.ins, PathNode.edgesNonempty] using h
  · intro f cs flag path hne ih h
    simp only [PathNode.ins, if_neg hne, PathNode.edgesNonempty]
    exact ih hne (by simpa [PathNode.edgesNonempty] using h)
  · -- recurse branch
    intro flag path p node hlen hpre ih hne hinv e2 he2
    simp only [tryEdge, if_pos hlen, if_pos hpre, Option.some.injEq] at he2
    subst he2
    obtain ⟨hp, hn⟩ := hinv
    simp only [PathEdge.pfx, PathEdge.node] at hp hn ⊢
    exact ⟨hp, ih hn⟩
  · -- split, long-path branch
    intro flag path p node hlen hpre i hsplit hne hinv e2 he2
    simp only [tryEdge, if_pos hlen, if_neg hpre, hsplit, Option.some.injEq] at he2
    subst he2
    obtain ⟨hp, hn⟩ := hinv
    simp only [PathEdge.pfx, PathEdge.node] at hp hn ⊢
    have hb := splitIdx_bounds hsplit
    refine ⟨take_ne_nil hb.1 hp, ?_⟩
    simp [PathNode.edgesNonempty, edgeListNonempty, hn,
      drop_ne_nil (show i < p.length by omega),
      drop_ne_nil (show i < path.length by omega)]
  · -- no split point, long-path branch
    intro flag path p node hlen hpre hsplit hne hinv e2 he2
    simp only [tryEdge, if_pos hlen, if_neg hpre, hsplit] at he2
    simp at he2
  · -- restructure branch
    intro flag path p node hlen hpre hne hinv e2 he2
    simp only [tryEdge, if_neg hlen, if_pos hpre, Option.some.injEq] at he2
    subst he2
    obtain ⟨hp, hn⟩ := hinv
    simp only [PathEdge.pfx, PathEdge.node] at hp hn ⊢
    refine ⟨hne, ?_⟩
    simp [PathNode.edgesNonempty, edgeListNonempty, hn,
      drop_ne_nil (show path.length < p.length by omega)]
  · -- split, short-path branch
    intro flag path p node hlen hpre i hsplit hne hinv e2 he2
    simp only [tryEdge, if_neg hlen, if_neg hpre, hsplit, Option.some.injEq] at he2
    subst he2
    obtain ⟨hp, hn⟩ := hinv
    simp only [PathEdge.pfx, PathEdge.node] at hp hn ⊢
    have hb := splitIdx_bounds hsplit
    refine ⟨take_ne_nil hb.1 hne, ?_⟩
    simp [PathNode.edgesNonempty, edgeListNonempty, hn,
      drop_ne_nil (show i < p.length by omega),
      drop_ne_nil (show i < path.length by omega)]
  · -- no split point, short-path branch
    intro flag path p node hlen hpre hsplit hne hinv e2 he2
    simp only [tryEdge, if_neg hlen, if_neg hpre, hsplit] at he2
    simp at he2
  · -- insEdges []
    intro flag path hne h
    simp [insEdges, edgeListNonempty, PathNode.edgesNonempty, hne]
  · -- insEdges cons, edge rewritten
    intro flag path e rest e2 he2 ihE hne h
    obtain ⟨l, n⟩ := e
    simp only [edgeListNonempty, Bool.and_eq_true, decide_eq_true_eq] at h
    obtain ⟨⟨hl, hn⟩, hrest⟩ := h
    have h3 := ihE hne (by simp [PathEdge.pfx, PathEdge.node]; exact ⟨hl, hn⟩) e2 he2
    obtain ⟨l2, n2⟩ := e2
    simp only [PathEdge.pfx, PathEdge.node] at h3
    simp only [insEdges, he2, edgeListNonempty, Bool.and_eq_true, decide_eq_true_eq]
    exact ⟨⟨h3.1, h3.2⟩, hrest⟩
  · -- insEdges cons, fall through
    intro flag path e rest he2 ihE ihRest hne h
    obtain ⟨l, n⟩ := e
    simp only [edgeListNonempty, Bool.and_eq_true, decide_eq_true_eq] at h
    obtain ⟨⟨hl, hn⟩, hrest⟩ := h
    simp only [insEdges, he2, edgeListNonempty, Bool.and_eq_true, decide_eq_true_eq]
    exact ⟨⟨hl, hn⟩, ihRest hne hrest⟩

/-- **C8.** After every finite sequence of public `PathNode::insert` calls
starting from an empty `PathNode`, every `PathEdge` in the tree has a label of
nonzero length.  Since every intermediate tree of the fold is itself
`buildPath` of a prefix of the insertion sequence, the `debug_assert!` that a
child's prefix is nonempty holds on every iteration of the insertion loop, and
no split branch is ever reached with an empty-label edge. -/
theorem c8_all_edge_labels_nonempty :
    ∀ (l : List (ReqType × List Char)), (buildPath l).edgesNonempty = true := by
  have gen : ∀ (l : List (ReqType × List Char)) (n : PathNode),
      n.edgesNonempty = true →
      (l.foldl (fun t x => t.insert x.1 x.2) n).edgesNonempty = true := by
    intro l
    induction l with
    | nil => intro n h; exact h
    | cons x xs ih =>
      intro n h
      exact ih _ (edgesNonempty_ins _ _ _ h)
  intro l
  have : buildPath l = l.foldl (fun t x => t.insert x.1 x.2) PathNode.new := rfl
  rw [this]
  exact gen l PathNode.new rfl


/-! ## Flag-isolation invariant (claim C7) -/

set_option maxRecDepth 10000 in
theorem flag_not_contains : ∀ A B : ReqType, A ≠ B → flagsContain A.flag B.flag = false := by
  decide

theorem flagsIn_ins :
    ∀ (n : PathNode) (flag : Nat) (path : List Char),
      n.flagsIn flag = true → (n.ins flag path).flagsIn flag = true := by
  refine PathNode.ins.induct
    (fun n flag path => n.flagsIn flag = true → (n.ins flag path).flagsIn flag = true)
    (fun flag path cs => edgesFlagsIn cs flag = true →
        edgesFlagsIn (insEdges flag path cs) flag = true)
    (fun flag path e => e.node.flagsIn flag = true →
        ∀ e2, tryEdge flag path e = some e2 → e2.node.flagsIn flag = true)
    ?_ ?_ ?_ ?_ ?_ ?_ ?_ ?_ ?_ ?_ ?_
  · intro f cs flag h
    have hred : (PathNode.mk f cs).ins flag [] = PathNode.mk (f ||| flag) cs := rfl
    rw [hred]
    simp only [PathNode.flagsIn, Bool.and_eq_true, Bool.or_eq_true, beq_iff_eq] at h ⊢
    obtain ⟨hf, hcs⟩ := h
    refine ⟨?_, hcs⟩
    rcases hf with h0 | hF
    · subst h0; right; exact Nat.zero_or flag
    · rw [hF]; right; exact Nat.or_self flag
  · intro f cs flag path hne ih h
    simp only [PathNode.ins, if_neg hne, PathNode.flagsIn, Bool.and_eq_true] at h ⊢
    exact ⟨h.1, ih h.2⟩
  · intro flag path p node hlen hpre ih hn e2 he2
    simp only [tryEdge, if_pos hlen, if_pos hpre, Option.some.injEq] at he2
    subst he2
    simp only [PathEdge.node] at hn ⊢
    exact ih hn
  · intro flag path p node hlen hpre i hsplit hn e2 he2
    simp only [tryEdge, if_pos hlen, if_neg hpre, hsplit, Option.some.injEq] at he2
    subst he2
    simp only [PathEdge.node] at hn ⊢
    simp [PathNode.flagsIn, edgesFlagsIn, hn]
  · intro flag path p node hlen hpre hsplit hn e2 he2
    simp only [tryEdge, if_pos hlen, if_neg hpre, hsplit] at he2
    simp at he2
  · intro flag path p node hlen hpre hn e2 he2
    simp only [tryEdge, if_neg hlen, if_pos hpre, Option.some.injEq] at he2
    subst he2
    simp only [PathEdge.node] at hn ⊢
    simp [PathNode.flagsIn, edgesFlagsIn, hn]
  · intro flag path p node hlen hpre i hsplit hn e2 he2
    simp only [tryEdge, if_neg hlen, if_neg hpre, hsplit, Option.some.injEq] at he2
    subst he2
    simp only [PathEdge.node] at hn ⊢
    simp [PathNode.flagsIn, edgesFlagsIn, hn]
  · intro flag path p node hlen hpre hsplit hn e2 he2
    simp only [tryEdge, if_neg hlen, if_neg hpre, hsplit] at he2
    simp at he2
  · intro flag path h
    simp [insEdges, edgesFlagsIn, PathNode.flagsIn]
  · intro flag path e rest e2 he2 ihE h
    obtain ⟨l, n⟩ := e
    simp only [edgesFlagsIn, Bool.and_eq_true] at h
    have h3 := ihE (by simpa [PathEdge.node] using h.1) e2 he2
    obtain ⟨l2, n2⟩ := e2
    simp only [insEdges, he2, edgesFlagsIn, Bool.and_eq_true]
    simp only [PathEdge.node] at h3
    exact ⟨h3, h.2⟩
  · intro flag path e rest he2 ihE ihRest h
    obtain ⟨l, n⟩ := e
    simp only [edgesFlagsIn, Bool.and_eq_true] at h
    simp only [insEdges, he2, edgesFlagsIn, Bool.and_eq_true]
    exact ⟨h.1, ihRest h.2⟩

theorem edgesFlagsIn_ordIns (e : PathEdge) (F : Nat) :
    ∀ es, e.node.flagsIn F = true → edgesFlagsIn es F = true →
      edgesFlagsIn (ordIns e es) F = true := by
  intro es
  induction es with
  | nil =>
    intro he _
    obtain ⟨l, n⟩ := e
    simpa [ordIns, edgesFlagsIn, PathEdge.node] using he
  | cons h t ih =>
    intro he hes
    obtain ⟨lh, nh⟩ := h
    simp only [edgesFlagsIn, Bool.and_eq_true] at hes
    simp only [ordIns]
    by_cases hlt : lexLt e.pfx (PathEdge.mk lh nh).pfx = true
    · obtain ⟨le, ne⟩ := e
      simp only [PathEdge.node] at he
      simp [hlt, edgesFlagsIn, he, hes.1, hes.2]
    · simp only [if_neg hlt, edgesFlagsIn, Bool.and_eq_true]
      exact ⟨hes.1, ih he hes.2⟩

theorem edgesFlagsIn_sortEdges (F : Nat) :
    ∀ es, edgesFlagsIn es F = true → edgesFlagsIn (sortEdges es) F = true := by
  intro es
  induction es with
  | nil => intro h; exact h
  | cons e rest ih =>
    intro h
    obtain ⟨l, n⟩ := e
    simp only [edgesFlagsIn, Bool.and_eq_true] at h
    simp only [sortEdges]
    exact edgesFlagsIn_ordIns _ _ _ (by simpa [PathEdge.node] using h.1) (ih h.2)

theorem flagsIn_arrange (F : Nat) :
    ∀ n : PathNode, n.flagsIn F = true → n.arrange.flagsIn F = true := by
  refine PathNode.arrange.induct
    (fun n => n.flagsIn F = true → n.arrange.flagsIn F = true)
    (fun cs => edgesFlagsIn cs F = true → edgesFlagsIn (arrangeEdges cs) F = true)
    ?_ ?_ ?_
  · intro f cs ih h
    simp only [PathNode.flagsIn, Bool.and_eq_true] at h
    simp only [PathNode.arrange, searchArrange, PathNode.flagsIn, Bool.and_eq_true]
    exact ⟨h.1, edgesFlagsIn_sortEdges F _ (ih h.2)⟩
  · intro h; exact h
  · intro l n rest ihn ihrest h
    simp only [edgesFlagsIn, Bool.and_eq_true] at h
    simp only [arrangeEdges, edgesFlagsIn, Bool.and_eq_true]
    exact ⟨ihn (by simpa [PathEdge.node] using h.1), ihrest h.2⟩

theorem chk_false_of_flagsIn :
    ∀ (n : PathNode) (rt : ReqType) (path : List Char),
      (∀ F : Nat, flagsContain F rt.flag = false → n.flagsIn F = true → n.chk rt path = false) := by
  refine PathNode.chk.induct
    (fun n rt path => ∀ F, flagsContain F rt.flag = false → n.flagsIn F = true →
        n.chk rt path = false)
    (fun cs rt path => ∀ F, flagsContain F rt.flag = false → edgesFlagsIn cs F = true →
        chkEdges cs rt path = false)
    ?_ ?_ ?_ ?_
  · intro f cs rt path ih F hF h
    simp only [PathNode.flagsIn, Bool.and_eq_true, Bool.or_eq_true, beq_iff_eq] at h
    obtain ⟨hf, hcs⟩ := h
    simp only [PathNode.chk, Bool.or_eq_false_iff]
    constructor
    · rcases hf with rfl | rfl
      · exact flagsContain_zero_flag rt
      · exact hF
    · exact ih F hF hcs
  · intro rt path F _ _
    rfl
  · intro pre n rest rt path hpre ih F hF h
    simp only [edgesFlagsIn, Bool.and_eq_true] at h
    simp only [chkEdges, if_pos hpre]
    exact ih F hF (by simpa [PathEdge.node] using h.1)
  · intro pre n rest rt path hpre ih F hF h
    simp only [edgesFlagsIn, Bool.and_eq_true] at h
    simp only [chkEdges, if_neg hpre]
    exact ih F hF h.2

theorem check_false_of_flagsIn (n : PathNode) (rt : ReqType) (path : List Char) (F : Nat)
    (hF : flagsContain F rt.flag = false) (h : n.flagsIn F = true) :
    n.check rt path = false :=
  chk_false_of_flagsIn n rt (normPath path) F hF h


theorem hostFlagsIn_new (F : Nat) : HostNode.new.flagsIn F = true := rfl

theorem hostEdgesFlagsIn_updAssoc (F : Nat) (key : List Char) (f : HostNode → HostNode)
    (hf : ∀ c, c.flagsIn F = true → (f c).flagsIn F = true)
    (hnew : (f HostNode.new).flagsIn F = true) :
    ∀ cs, hostEdgesFlagsIn cs F = true → hostEdgesFlagsIn (updAssoc key f cs) F = true := by
  intro cs
  induction cs with
  | nil =>
    intro _
    simp [updAssoc, hostEdgesFlagsIn, hnew]
  | cons e rest ih =>
    intro h
    obtain ⟨l, c⟩ := e
    simp only [hostEdgesFlagsIn, Bool.and_eq_true] at h
    simp only [updAssoc]
    by_cases hk : l = key
    · simp only [if_pos hk, hostEdgesFlagsIn, Bool.and_eq_true]
      exact ⟨hf c h.1, h.2⟩
    · simp only [if_neg hk, hostEdgesFlagsIn, Bool.and_eq_true]
      exact ⟨h.1, ih h.2⟩

theorem hostFlagsIn_ins :
    ∀ (n : HostNode) (rt : ReqType) (parts : List (List Char)) (path : List Char),
      n.flagsIn rt.flag = true → (n.ins rt parts path).flagsIn rt.flag = true := by
  refine HostNode.ins.induct
    (fun n rt parts path =>
      n.flagsIn rt.flag = true → (n.ins rt parts path).flagsIn rt.flag = true)
    ?_ ?_ ?_
  · intro t w cs rt path h
    have hred : (HostNode.mk t w cs).ins rt [] path
        = HostNode.mk (t.ins rt.flag (normPath path)) w cs := rfl
    rw [hred]
    simp only [HostNode.flagsIn, Bool.and_eq_true] at h ⊢
    exact ⟨⟨flagsIn_ins t rt.flag (normPath path) h.1.1, h.1.2⟩, h.2⟩
  · intro t w cs rt rest path h
    have hred : (HostNode.mk t w cs).ins rt (['*'] :: rest) path
        = HostNode.mk t (w.ins rt.flag (normPath path)) cs := rfl
    rw [hred]
    simp only [HostNode.flagsIn, Bool.and_eq_true] at h ⊢
    exact ⟨⟨h.1.1, flagsIn_ins w rt.flag (normPath path) h.1.2⟩, h.2⟩
  · intro t w cs rt part rest path hne ih h
    simp only [HostNode.ins, if_neg hne, HostNode.flagsIn, Bool.and_eq_true] at h ⊢
    exact ⟨h.1,
      hostEdgesFlagsIn_updAssoc rt.flag part _ (fun c hc => ih c hc)
        (ih HostNode.new (hostFlagsIn_new _)) cs h.2⟩

theorem hostFlagsIn_insert (n : HostNode) (rt : ReqType) (host path : List Char)
    (h : n.flagsIn rt.flag = true) : (n.insert rt host path).flagsIn rt.flag = true :=
  hostFlagsIn_ins n rt _ path h

theorem hostFlagsIn_arrange (F : Nat) :
    ∀ n : HostNode, n.flagsIn F = true → n.arrange.flagsIn F = true := by
  refine HostNode.arrange.induct
    (fun n => n.flagsIn F = true → n.arrange.flagsIn F = true)
    (fun cs => hostEdgesFlagsIn cs F = true → hostEdgesFlagsIn (arrangeHostEdges cs) F = true)
    ?_ ?_ ?_
  · intro t w cs ih h
    simp only [HostNode.arrange, HostNode.flagsIn, Bool.and_eq_true] at h ⊢
    exact ⟨⟨flagsIn_arrange F t h.1.1, flagsIn_arrange F w h.1.2⟩, ih h.2⟩
  · intro h; exact h
  · intro l c rest ihc ihrest h
    simp only [hostEdgesFlagsIn, arrangeHostEdges, Bool.and_eq_true] at h ⊢
    exact ⟨ihc h.1, ihrest h.2⟩

theorem lookupChild_flagsIn (F : Nat) (key : List Char) :
    ∀ (cs : List HostEdge) (c : HostNode), lookupChild key cs = some c →
      hostEdgesFlagsIn cs F = true → c.flagsIn F = true := by
  intro cs
  induction cs with
  | nil =>
    intro c hc _
    simp [lookupChild] at hc
  | cons e rest ih =>
    intro c hc h
    obtain ⟨l, n⟩ := e
    simp only [hostEdgesFlagsIn, Bool.and_eq_true] at h
    simp only [lookupChild] at hc
    by_cases hk : l = key
    · rw [if_pos hk] at hc
      simp only [Option.some.injEq] at hc
      rw [← hc]
      exact h.1
    · rw [if_neg hk] at hc
      exact ih c hc h.2

theorem host_chk_false (rt : ReqType) (F : Nat) (hF : flagsContain F rt.flag = false) :
    ∀ (parts : List (List Char)) (n : HostNode) (path : List Char),
      n.flagsIn F = true → n.chk rt parts path = false := by
  intro parts
  induction parts with
  | nil =>
    intro n path h
    obtain ⟨t, w, cs⟩ := n
    simp only [HostNode.flagsIn, Bool.and_eq_true] at h
    have hred : (HostNode.mk t w cs).chk rt [] path = t.check rt path := rfl
    rw [hred]
    exact check_false_of_flagsIn t rt path F hF h.1.1
  | cons part rest ih =>
    intro n path h
    obtain ⟨t, w, cs⟩ := n
    simp only [HostNode.flagsIn, Bool.and_eq_true] at h
    simp only [HostNode.chk]
    cases hl : lookupChild part cs with
    | some c =>
      simp only [hl]
      rw [ih c path (lookupChild_flagsIn F part cs c hl h.2),
        check_false_of_flagsIn w rt path F hF h.1.2]
      rfl
    | none =>
      simp only [hl]
      rw [check_false_of_flagsIn w rt path F hF h.1.2]
      rfl

/-- **C7.** For all distinct reqtype pairs A and B, `flag A` does not contain
`flag B` (every scheme and category has its own bit), and consequently, after
any sequence of insertions all using pair A into a fresh `HostNode` followed
by `arrange`, `check` with pair B returns false for every host and path. -/
theorem c7_distinct_pairs_isolated :
    ∀ A B : ReqType, A ≠ B →
      flagsContain A.flag B.flag = false ∧
      ∀ (l : List (List Char × List Char)) (hs ps : List Char),
        ((buildHost (l.map fun x => (A, x.1, x.2))).arrange).check B hs ps = false := by
  intro A B hAB
  refine ⟨flag_not_contains A B hAB, ?_⟩
  intro l hs ps
  have hbuild : (buildHost (l.map fun x => (A, x.1, x.2))).flagsIn A.flag = true := by
    unfold buildHost
    rw [List.foldl_map]
    have gen : ∀ (l' : List (List Char × List Char)) (n : HostNode),
        n.flagsIn A.flag = true →
        (l'.foldl (fun n x => n.insert A x.1 x.2) n).flagsIn A.flag = true := by
      intro l'
      induction l' with
      | nil => intro n h; exact h
      | cons x xs ihx =>
        intro n h
        exact ihx _ (hostFlagsIn_insert n A x.1 x.2 h)
    exact gen l HostNode.new (hostFlagsIn_new _)
  have harr := hostFlagsIn_arrange A.flag _ hbuild
  unfold HostNode.check
  exact host_chk_false B A.flag (flag_not_contains A B hAB) _ _ ps harr


/-- Witness for `c7_distinct_pairs_isolated` at A = (Http, ScriptSrc),
B = (Https, StyleSrc), inserting ("com", "/x") and probing the same host and
path. -/
theorem c7_isolation_witness :
    ((⟨.Http, .ScriptSrc⟩ : ReqType) ≠ ⟨.Https, .StyleSrc⟩) ∧
      flagsContain (ReqType.flag ⟨.Http, .ScriptSrc⟩) (ReqType.flag ⟨.Https, .StyleSrc⟩)
          = false ∧
      ((buildHost ([("com".toList, "/x".toList)].map
            fun x => ((⟨.Http, .ScriptSrc⟩ : ReqType), x.1, x.2))).arrange).check
        ⟨.Https, .StyleSrc⟩ "com".toList "/x".toList = false :=
  ⟨by decide,
    (c7_distinct_pairs_isolated ⟨.Http, .ScriptSrc⟩ ⟨.Https, .StyleSrc⟩ (by decide)).1,
    (c7_distinct_pairs_isolated ⟨.Http, .ScriptSrc⟩ ⟨.Https, .StyleSrc⟩ (by decide)).2
      [("com".toList, "/x".toList)] "com".toList "/x".toList⟩

end CSPTree
